import Mathlib

/-!
Shallow embedding of the buffer-allocation genetic algorithm
(`src/unnamed/part_001` of the repository) and proofs of the
specification claims about it.

Modelling conventions:
* JavaScript numbers holding buffer counts are embedded as `ℕ`
  (chromosomes are vectors of non-negative integers per the data model);
  fitness/throughput values are embedded as `ℝ`, and quantities that can
  be `-Infinity` (best-fitness accumulators) as `EReal` with `⊥ = -∞`.
* `Math.random()` is embedded as an explicit stream `f : ℕ → ℚ` of draws
  together with a position `k : ℕ`; each call reads `f k` and advances
  the position.  `ValidStream f` states every draw lies in `[0, 1)`,
  which is the contract of `Math.random`.  Quantifying over all valid
  streams quantifies over all possible runs.
* The `while` loop of the crossover repair is embedded with explicit
  fuel equal to the initial absolute deviation of the offspring's sum
  from the target (the spec's own bound for the loop); the repair
  functions additionally return the number of loop iterations performed
  so that the bound can be stated.
-/

/-- One candidate buffer allocation: `type Chromosome = number[]`. -/
abbrev Chromosome := List ℕ

/-- `type Population = Chromosome[]`. -/
abbrev Population := List Chromosome

/-- The search configuration record `GASettings`. -/
structure GASettings where
  populationSize : ℕ
  generations : ℕ
  mutationRate : ℚ
  crossoverRate : ℚ
  tournamentSize : ℕ

/-- The problem definition record `OptimizationParams`. -/
structure OptimizationParams where
  numStations : ℕ
  totalBuffers : ℕ
  w1 : ℝ
  w2 : ℝ

/-- The terminal record `OptimizationResult`. -/
structure OptimizationResult where
  bestAllocation : Chromosome
  predictedThroughput : ℝ
  totalBuffersUsed : ℕ
  bestFitness : EReal

/-- The per-generation record `ProgressData`. -/
structure ProgressData where
  generation : ℕ
  bestFitness : EReal
  avgFitness : ℝ

/-- A random stream is valid when every draw lies in `[0, 1)`,
the contract of `Math.random()`. -/
def ValidStream (f : ℕ → ℚ) : Prop := ∀ i, 0 ≤ f i ∧ f i < 1

/-- `Math.floor(Math.random() * n)` : draw the value at position `k` of the
stream, scale by `n` and take the floor; the position advances by one. -/
def randBelow (f : ℕ → ℚ) (n k : ℕ) : ℕ × ℕ := ((⌊f k * (n : ℚ)⌋).toNat, k + 1)

/-- A bare `Math.random()` draw (used for the probability gates). -/
def randFloat (f : ℕ → ℚ) (k : ℕ) : ℚ × ℕ := (f k, k + 1)

/-- The mock throughput model `predictThroughput`: 0 for an empty vector, a
baseline of 50 for a zero-sum vector, otherwise a diminishing-returns base
derated by an imbalance penalty built from the standard deviation. -/
noncomputable def predictThroughput (buffers : Chromosome) : ℝ :=
  if buffers.length = 0 then 0
  else
    let totalBuffers := buffers.sum
    if totalBuffers = 0 then 50
    else
      let mean : ℝ := (totalBuffers : ℝ) / (buffers.length : ℝ)
      let variance : ℝ :=
        (buffers.map (fun b : ℕ => ((b : ℝ) - mean) ^ 2)).sum /
          (buffers.length : ℝ)
      let stdDev := Real.sqrt variance
      let baseThroughput := 1000 * (1 - Real.exp (-0.05 * (totalBuffers : ℝ)))
      let imbalancePenalty := 1 + stdDev / (mean + 1)
      baseThroughput / imbalancePenalty

/-- The combined objective `calculateFitness = w1 * throughput - w2 * sum`. -/
noncomputable def calculateFitness (chromosome : Chromosome) (w1 w2 : ℝ) : ℝ :=
  w1 * predictThroughput chromosome - w2 * (chromosome.sum : ℝ)

/-- The distribution loop of `createIndividual`: `remaining` times, draw a
uniformly random slot and increment it. -/
def createIndividualAux (f : ℕ → ℚ) (numBufferSlots : ℕ) :
    ℕ → Chromosome → ℕ → Chromosome × ℕ
  | 0, individual, k => (individual, k)
  | remaining + 1, individual, k =>
      let d := randBelow f numBufferSlots k
      createIndividualAux f numBufferSlots remaining
        (individual.set d.1 (individual.getD d.1 0 + 1)) d.2

/-- `createIndividual`: start from `numBufferSlots` zeros and scatter
`totalBuffers` unit increments over uniformly random slots. -/
def createIndividual (f : ℕ → ℚ) (numBufferSlots totalBuffers k : ℕ) :
    Chromosome × ℕ :=
  if numBufferSlots ≤ 0 then ([], k)
  else createIndividualAux f numBufferSlots totalBuffers
    (List.replicate numBufferSlots 0) k

/-- `initializePopulation`: draw `popSize` independent individuals. -/
def initializePopulation (f : ℕ → ℚ) :
    ℕ → ℕ → ℕ → ℕ → Population × ℕ
  | 0, _, _, k => ([], k)
  | popSize + 1, numBufferSlots, totalBuffers, k =>
      let c := createIndividual f numBufferSlots totalBuffers k
      let rest := initializePopulation f popSize numBufferSlots totalBuffers c.2
      (c.1 :: rest.1, rest.2)

/-- The tournament loop of `tournamentSelection`: `t` draws with replacement;
a draw replaces the incumbent only under strict fitness improvement.  The
accumulator `best` starts as `null` (`none`) and `bestFitness` as `-∞`. -/
noncomputable def tournamentAux (f : ℕ → ℚ) (population : Population)
    (fitnesses : List EReal) :
    ℕ → Option Chromosome → EReal → ℕ → Option Chromosome × ℕ
  | 0, best, _, k => (best, k)
  | t + 1, best, bestFitness, k =>
      let d := randBelow f population.length k
      if bestFitness < fitnesses.getD d.1 ⊥ then
        tournamentAux f population fitnesses t
          (some (population.getD d.1 [])) (fitnesses.getD d.1 ⊥) d.2
      else
        tournamentAux f population fitnesses t best bestFitness d.2

/-- `tournamentSelection`, returning the possibly-`null` accumulator (the
source asserts it non-null with `best!`). -/
noncomputable def tournamentSelection (f : ℕ → ℚ) (population : Population)
    (fitnesses : List EReal) (tournamentSize k : ℕ) : Option Chromosome × ℕ :=
  tournamentAux f population fitnesses tournamentSize none ⊥ k

/-- Absolute deviation of the current sum from the target, the bound on the
repair loop. -/
def sumDist (a b : ℕ) : ℕ := (a - b) + (b - a)

/-- The repair `while` loop of `crossover`, with explicit fuel: while the sum
differs from the target, either decrement the first positive slot (sum too
big; if none exists, abandon and synthesize a fresh individual) or increment
a uniformly random slot (sum too small).  Returns the repaired chromosome,
the stream position, and the number of loop iterations performed. -/
def repairFuel (f : ℕ → ℚ) (size totalBuffers : ℕ) :
    ℕ → Chromosome → ℕ → Chromosome × ℕ × ℕ
  | 0, child, k => (child, k, 0)
  | fuel + 1, child, k =>
      if child.sum = totalBuffers then (child, k, 0)
      else if totalBuffers < child.sum then
        match child.findIdx? (fun val => 0 < val) with
        | some indexToReduce =>
            let r := repairFuel f size totalBuffers fuel
              (child.set indexToReduce (child.getD indexToReduce 0 - 1)) k
            (r.1, r.2.1, r.2.2 + 1)
        | none =>
            let c := createIndividual f size totalBuffers k
            (c.1, c.2, 1)
      else
        let d := randBelow f size k
        let r := repairFuel f size totalBuffers fuel
          (child.set d.1 (child.getD d.1 0 + 1)) d.2
        (r.1, r.2.1, r.2.2 + 1)

/-- `repair` runs the loop with fuel equal to the initial absolute deviation
of the child's sum from the target (the spec's bound for the loop). -/
def repair (f : ℕ → ℚ) (size totalBuffers : ℕ) (child : Chromosome) (k : ℕ) :
    Chromosome × ℕ × ℕ :=
  repairFuel f size totalBuffers (sumDist child.sum totalBuffers) child k

/-- Single-point `crossover` with repair: for parents of length at least 2,
cut at a uniformly random point in `[1, size - 1]`, swap tails, and repair
both offspring. -/
def crossover (f : ℕ → ℚ) (totalBuffers : ℕ) (parent1 parent2 : Chromosome)
    (k : ℕ) : (Chromosome × Chromosome) × ℕ :=
  let size := parent1.length
  if size ≤ 1 then ((parent1, parent2), k)
  else
    let d := randBelow f (size - 1) k
    let crossoverPoint := d.1 + 1
    let offspring1 := parent1.take crossoverPoint ++ parent2.drop crossoverPoint
    let offspring2 := parent2.take crossoverPoint ++ parent1.drop crossoverPoint
    let r1 := repair f size totalBuffers offspring1 d.2
    let r2 := repair f size totalBuffers offspring2 r1.2.1
    ((r1.1, r2.1), r2.2.1)

/-- `mutate`: pick a random slot; if it is positive, pick a second random
slot (possibly the same) and transfer one unit from the first to the second;
otherwise no-op.  Chromosomes of length at most 1 are returned unchanged. -/
def mutate (f : ℕ → ℚ) (chromosome : Chromosome) (k : ℕ) : Chromosome × ℕ :=
  if chromosome.length ≤ 1 then (chromosome, k)
  else
    let d1 := randBelow f chromosome.length k
    if 0 < chromosome.getD d1.1 0 then
      let d2 := randBelow f chromosome.length d1.2
      let decremented := chromosome.set d1.1 (chromosome.getD d1.1 0 - 1)
      (decremented.set d2.1 (decremented.getD d2.1 0 + 1), d2.2)
    else (chromosome, d1.2)

/-- The loop state of `runGA`: current population, best-ever individual and
fitness, and the random stream position. -/
structure GAState where
  population : Population
  bestEver : Chromosome
  bestFitnessEver : EReal
  pos : ℕ

/-- The fitness-evaluation `for` loop of `runGA`: accumulate the total
fitness and track the strict maximum together with its individual. -/
noncomputable def evalLoop :
    List (Chromosome × ℝ) → EReal → Option Chromosome → ℝ →
      EReal × Option Chromosome × ℝ
  | [], currentBest, currentInd, totalFitness =>
      (currentBest, currentInd, totalFitness)
  | (ind, fit) :: rest, currentBest, currentInd, totalFitness =>
      let totalFitness' := totalFitness + fit
      if currentBest < (fit : EReal) then
        evalLoop rest (fit : EReal) (some ind) totalFitness'
      else
        evalLoop rest currentBest currentInd totalFitness'

/-- One iteration of the reproduction `while` loop: select `parent1`; with
probability `crossoverRate` select `parent2`, cross, possibly mutate the
second offspring and push it if there is still room; possibly mutate the
first offspring and always push it.  `curLen` is the current length of the
new population (used by the room check). -/
noncomputable def reproduceStep (f : ℕ → ℚ) (population : Population)
    (fitnesses : List EReal)
    (tournamentSize : ℕ) (crossoverRate mutationRate : ℚ)
    (totalBuffers popSize curLen k : ℕ) : List Chromosome × ℕ :=
  let s1 := tournamentSelection f population fitnesses tournamentSize k
  let parent1 := s1.1.getD []
  let g1 := randFloat f s1.2
  if g1.1 < crossoverRate then
    let s2 := tournamentSelection f population fitnesses tournamentSize g1.2
    let parent2 := s2.1.getD []
    let co := crossover f totalBuffers parent1 parent2 s2.2
    let g2 := randFloat f co.2
    let m2 := if g2.1 < mutationRate then mutate f co.1.2 g2.2 else (co.1.2, g2.2)
    let pushed := if curLen < popSize then [m2.1] else []
    let g3 := randFloat f m2.2
    let m1 := if g3.1 < mutationRate then mutate f co.1.1 g3.2 else (co.1.1, g3.2)
    (pushed ++ [m1.1], m1.2)
  else
    let g3 := randFloat f g1.2
    let m1 := if g3.1 < mutationRate then mutate f parent1 g3.2 else (parent1, g3.2)
    ([m1.1], m1.2)

/-- Every iteration of the reproduction loop appends at least one
individual (the first offspring is always pushed). -/
theorem reproduceStep_length_pos (f : ℕ → ℚ) (population : Population)
    (fitnesses : List EReal) (tournamentSize : ℕ)
    (crossoverRate mutationRate : ℚ) (totalBuffers popSize curLen k : ℕ) :
    1 ≤ (reproduceStep f population fitnesses tournamentSize crossoverRate
      mutationRate totalBuffers popSize curLen k).1.length := by
  unfold reproduceStep
  by_cases hg : (randFloat f (tournamentSelection f population fitnesses
      tournamentSize k).2).1 < crossoverRate
  · rw [if_pos hg]
    simp
  · rw [if_neg hg]
    simp

/-- The reproduction `while` loop: repeat `reproduceStep` until the new
population has at least `popSize` members. -/
noncomputable def reproduce (f : ℕ → ℚ) (population : Population)
    (fitnesses : List EReal)
    (tournamentSize : ℕ) (crossoverRate mutationRate : ℚ)
    (totalBuffers popSize : ℕ) (newPopulation : List Chromosome) (k : ℕ) :
    List Chromosome × ℕ :=
  if h : newPopulation.length < popSize then
    let s := reproduceStep f population fitnesses tournamentSize crossoverRate
      mutationRate totalBuffers popSize newPopulation.length k
    reproduce f population fitnesses tournamentSize crossoverRate mutationRate
      totalBuffers popSize (newPopulation ++ s.1) s.2
  else (newPopulation, k)
termination_by popSize - newPopulation.length
decreasing_by
  have h1 := reproduceStep_length_pos f population fitnesses tournamentSize
    crossoverRate mutationRate totalBuffers popSize newPopulation.length k
  simp only [List.length_append]
  omega

/-- One generation of the `runGA` loop: evaluate fitnesses, update the
best-ever individual under strict improvement, rebuild the population from
the elitist seed via the reproduction loop, truncate to `popSize`, and emit
the generation's `ProgressData`. -/
noncomputable def gaStep (w1 w2 : ℝ) (totalBuffers popSize tournamentSize : ℕ)
    (mutationRate crossoverRate : ℚ) (f : ℕ → ℚ) (genIdx : ℕ) (s : GAState) :
    ProgressData × GAState :=
  let fitnesses := s.population.map (fun ind => calculateFitness ind w1 w2)
  let ev := evalLoop (s.population.zip fitnesses) ⊥ none 0
  let upd := if s.bestFitnessEver < ev.1
    then (ev.2.1.getD [], ev.1)
    else (s.bestEver, s.bestFitnessEver)
  let fitnessesE := fitnesses.map Real.toEReal
  let rep := reproduce f s.population fitnessesE tournamentSize crossoverRate
    mutationRate totalBuffers popSize [upd.1] s.pos
  let population' := rep.1.take popSize
  (⟨genIdx + 1, upd.2, ev.2.2 / (population'.length : ℝ)⟩,
   ⟨population', upd.1, upd.2, rep.2⟩)

/-- The generation loop of `runGA`: `rem` remaining generations, collecting
one `ProgressData` per generation and finally producing the
`OptimizationResult` from the best-ever individual. -/
noncomputable def gaLoop (w1 w2 : ℝ) (totalBuffers popSize tournamentSize : ℕ)
    (mutationRate crossoverRate : ℚ) (f : ℕ → ℚ) :
    ℕ → ℕ → GAState → List ProgressData × OptimizationResult
  | 0, _, s =>
      ([], ⟨s.bestEver, predictThroughput s.bestEver, s.bestEver.sum,
        s.bestFitnessEver⟩)
  | rem + 1, genIdx, s =>
      let step := gaStep w1 w2 totalBuffers popSize tournamentSize mutationRate
        crossoverRate f genIdx s
      let rest := gaLoop w1 w2 totalBuffers popSize tournamentSize mutationRate
        crossoverRate f rem (genIdx + 1) step.2
      (step.1 :: rest.1, rest.2)

/-- Observer: the population evaluated in each generation of the loop (the
population held at the start of the generation, before replacement). -/
noncomputable def gaStates (w1 w2 : ℝ)
    (totalBuffers popSize tournamentSize : ℕ)
    (mutationRate crossoverRate : ℚ) (f : ℕ → ℚ) :
    ℕ → ℕ → GAState → List Population
  | 0, _, _ => []
  | rem + 1, genIdx, s =>
      s.population :: gaStates w1 w2 totalBuffers popSize tournamentSize
        mutationRate crossoverRate f rem (genIdx + 1)
        (gaStep w1 w2 totalBuffers popSize tournamentSize mutationRate
          crossoverRate f genIdx s).2

/-- The state `runGA` enters its loop with: the fresh population, its first
individual as `bestEver`, and `bestFitnessEver = -∞`. -/
def initState (params : OptimizationParams) (settings : GASettings)
    (f : ℕ → ℚ) (k : ℕ) : GAState :=
  let ip := initializePopulation f settings.populationSize
    (params.numStations - 1) params.totalBuffers k
  ⟨ip.1, ip.1.headD [], ⊥, ip.2⟩

/-- `runGA`: the full run, embedded as the list of yielded `ProgressData`
paired with the returned `OptimizationResult`.  The degenerate case
`numBufferSlots ≤ 0` short-circuits to the empty progress list and the
fixed degenerate result. -/
noncomputable def runGA (params : OptimizationParams) (settings : GASettings)
    (f : ℕ → ℚ) (k : ℕ) : List ProgressData × OptimizationResult :=
  if params.numStations - 1 ≤ 0 then ([], ⟨[], 0, 0, ⊥⟩)
  else
    gaLoop params.w1 params.w2 params.totalBuffers settings.populationSize
      settings.tournamentSize settings.mutationRate settings.crossoverRate f
      settings.generations 0 (initState params settings f k)

/-- Observer: the sequence of evaluated populations of a run, one per
generation (empty in the degenerate case). -/
noncomputable def runStates (params : OptimizationParams)
    (settings : GASettings) (f : ℕ → ℚ) (k : ℕ) : List Population :=
  if params.numStations - 1 ≤ 0 then []
  else
    gaStates params.w1 params.w2 params.totalBuffers settings.populationSize
      settings.tournamentSize settings.mutationRate settings.crossoverRate f
      settings.generations 0 (initState params settings f k)

/-- The index drawn from the stream at position `k` for a collection of
size `n` (used to state which tournament entrants were drawn). -/
def drawIndex (f : ℕ → ℚ) (n k : ℕ) : ℕ := (randBelow f n k).1

/-! ### Basic facts about the random draws and list surgery -/

/-- A valid draw scaled to a positive range lands inside the range. -/
theorem randBelow_lt (f : ℕ → ℚ) (hf : ValidStream f) {n : ℕ} (hn : 0 < n)
    (k : ℕ) : (randBelow f n k).1 < n := by
  obtain ⟨h0, h1⟩ := hf k
  have hmul0 : (0 : ℚ) ≤ f k * (n : ℚ) := by positivity
  have hmul1 : f k * (n : ℚ) < (n : ℚ) := by
    have : f k * (n : ℚ) < 1 * (n : ℚ) := by
      apply mul_lt_mul_of_pos_right h1
      exact_mod_cast hn
    simpa using this
  have hfloor : ⌊f k * (n : ℚ)⌋ < (n : ℤ) := by
    rw [Int.floor_lt]
    exact_mod_cast hmul1
  have hfloor0 : (0 : ℤ) ≤ ⌊f k * (n : ℚ)⌋ := Int.floor_nonneg.mpr hmul0
  simp only [randBelow]
  omega

/-- Incrementing an in-range slot adds one to the sum. -/
theorem sum_set_getD_add (l : List ℕ) (i : ℕ) (hi : i < l.length) :
    (l.set i (l.getD i 0 + 1)).sum = l.sum + 1 := by
  induction l generalizing i with
  | nil => simp at hi
  | cons a t ih =>
      cases i with
      | zero => simp [List.sum_cons]; omega
      | succ j =>
          simp only [List.length_cons, Nat.succ_lt_succ_iff] at hi
          simp only [List.set, List.getD, List.get?, List.sum_cons]
          have := ih j hi
          simp only [List.getD] at this
          omega

/-- Decrementing an in-range positive slot removes one from the sum. -/
theorem sum_set_getD_sub (l : List ℕ) (i : ℕ) (hi : i < l.length)
    (hpos : 0 < l.getD i 0) :
    (l.set i (l.getD i 0 - 1)).sum + 1 = l.sum := by
  induction l generalizing i with
  | nil => simp at hi
  | cons a t ih =>
      cases i with
      | zero =>
          simp only [List.getD, List.get?, Option.getD_some] at hpos
          simp [List.sum_cons]
          omega
      | succ j =>
          simp only [List.length_cons, Nat.succ_lt_succ_iff] at hi
          simp only [List.getD, List.get?] at hpos
          simp only [List.set, List.getD, List.get?, List.sum_cons]
          have := ih j hi (by simpa [List.getD] using hpos)
          simp only [List.getD] at this
          omega

/-- `findIdx?` returns an in-range index whose element satisfies the
predicate. -/
theorem findIdx?_spec (l : List ℕ) (p : ℕ → Bool) (i : ℕ)
    (h : l.findIdx? p = some i) : i < l.length ∧ p (l.getD i 0) = true := by
  induction l generalizing i with
  | nil => simp [List.findIdx?] at h
  | cons a t ih =>
      rw [List.findIdx?_cons] at h
      by_cases hp : p a
      · simp [hp] at h
        subst h
        simpa using hp
      · simp [hp] at h
        obtain ⟨j, hj, rfl⟩ := h
        obtain ⟨h1, h2⟩ := ih j hj
        constructor
        · simpa using Nat.succ_lt_succ h1
        · simpa using h2

/-- On a list with positive sum, the search for a positive slot succeeds. -/
theorem findIdx?_pos_of_sum_pos (l : List ℕ) (h : 0 < l.sum) :
    ∃ i, l.findIdx? (fun val => 0 < val) = some i := by
  induction l with
  | nil => simp at h
  | cons a t ih =>
      rw [List.findIdx?_cons]
      by_cases ha : 0 < a
      · exact ⟨0, by simp [ha]⟩
      · have ha0 : a = 0 := by omega
        subst ha0
        simp only [List.sum_cons, Nat.zero_add] at h
        obtain ⟨j, hj⟩ := ih h
        refine ⟨j + 1, ?_⟩
        simp [hj]

/-! ### Invariants of the population initializer -/

/-- The distribution loop preserves the length of the individual. -/
theorem createIndividualAux_length (f : ℕ → ℚ) (slots : ℕ) :
    ∀ (r : ℕ) (ind : Chromosome) (k : ℕ),
      (createIndividualAux f slots r ind k).1.length = ind.length := by
  intro r
  induction r with
  | zero => intro ind k; rfl
  | succ n ih =>
      intro ind k
      rw [createIndividualAux]
      rw [ih]
      simp

/-- With valid draws, the distribution loop adds exactly `r` units to the
sum of an individual of the full slot width. -/
theorem createIndividualAux_sum (f : ℕ → ℚ) (hf : ValidStream f) (slots : ℕ)
    (hs : 0 < slots) :
    ∀ (r : ℕ) (ind : Chromosome) (k : ℕ), ind.length = slots →
      (createIndividualAux f slots r ind k).1.sum = ind.sum + r := by
  intro r
  induction r with
  | zero => intro ind k _; rfl
  | succ n ih =>
      intro ind k hlen
      rw [createIndividualAux]
      have hd : (randBelow f slots k).1 < slots := randBelow_lt f hf hs k
      have hlt : (randBelow f slots k).1 < ind.length := by omega
      rw [ih _ _ (by simpa using hlen)]
      rw [sum_set_getD_add ind _ hlt]
      omega

/-- `createIndividual` with a positive slot count and valid draws produces a
chromosome of the requested length whose sum is the requested total. -/
theorem createIndividual_valid (f : ℕ → ℚ) (hf : ValidStream f)
    {slots : ℕ} (hs : 0 < slots) (totalBuffers k : ℕ) :
    (createIndividual f slots totalBuffers k).1.length = slots ∧
      (createIndividual f slots totalBuffers k).1.sum = totalBuffers := by
  unfold createIndividual
  rw [if_neg (by omega)]
  constructor
  · rw [createIndividualAux_length]
    simp
  · rw [createIndividualAux_sum f hf slots hs _ _ _ (by simp)]
    simp

/-- Every member of the initial population is a valid chromosome, and the
population has exactly the requested size. -/
theorem initializePopulation_valid (f : ℕ → ℚ) (hf : ValidStream f)
    {slots : ℕ} (hs : 0 < slots) (totalBuffers : ℕ) :
    ∀ (popSize k : ℕ),
      (initializePopulation f popSize slots totalBuffers k).1.length = popSize ∧
      ∀ c ∈ (initializePopulation f popSize slots totalBuffers k).1,
        c.length = slots ∧ c.sum = totalBuffers := by
  intro popSize
  induction popSize with
  | zero => intro k; simp [initializePopulation]
  | succ n ih =>
      intro k
      rw [initializePopulation]
      refine ⟨by simp [(ih _).1], ?_⟩
      intro c hc
      simp only [List.mem_cons] at hc
      rcases hc with rfl | hc
      · exact createIndividual_valid f hf hs totalBuffers k
      · exact (ih _).2 c hc

/-! ### Invariants of the repair loop -/

/-- The repair loop preserves the chromosome length (the safeguard branch
regenerates at the full width). -/
theorem repairFuel_length (f : ℕ → ℚ) (hf : ValidStream f)
    {size : ℕ} (hs : 0 < size) (totalBuffers : ℕ) :
    ∀ (fuel : ℕ) (child : Chromosome) (k : ℕ), child.length = size →
      (repairFuel f size totalBuffers fuel child k).1.length = size := by
  intro fuel
  induction fuel with
  | zero => intro child k hlen; exact hlen
  | succ n ih =>
      intro child k hlen
      rw [repairFuel]
      by_cases heq : child.sum = totalBuffers
      · rw [if_pos heq]; exact hlen
      · rw [if_neg heq]
        by_cases hgt : totalBuffers < child.sum
        · rw [if_pos hgt]
          rcases hidx : child.findIdx? (fun val => 0 < val) with _ | i
          · rw [hidx]
            exact (createIndividual_valid f hf hs totalBuffers k).1
          · rw [hidx]
            exact ih _ _ (by simpa using hlen)
        · rw [if_neg hgt]
          simp only
          exact ih _ _ (by simpa using hlen)

/-- With fuel at least the absolute deviation of the sum from the target,
the repair loop ends with the sum equal to the target. -/
theorem repairFuel_sum (f : ℕ → ℚ) (hf : ValidStream f)
    {size : ℕ} (hs : 0 < size) (totalBuffers : ℕ) :
    ∀ (fuel : ℕ) (child : Chromosome) (k : ℕ), child.length = size →
      sumDist child.sum totalBuffers ≤ fuel →
      (repairFuel f size totalBuffers fuel child k).1.sum = totalBuffers := by
  intro fuel
  induction fuel with
  | zero =>
      intro child k _ hfuel
      simp only [sumDist] at hfuel
      simp only [repairFuel]
      omega
  | succ n ih =>
      intro child k hlen hfuel
      rw [repairFuel]
      by_cases heq : child.sum = totalBuffers
      · rw [if_pos heq]; exact heq
      · rw [if_neg heq]
        by_cases hgt : totalBuffers < child.sum
        · rw [if_pos hgt]
          have hpos : 0 < child.sum := by omega
          obtain ⟨i, hi⟩ := findIdx?_pos_of_sum_pos child hpos
          rw [hi]
          simp only
          obtain ⟨hilt, hip⟩ := findIdx?_spec child _ i hi
          have hip' : 0 < child.getD i 0 := by simpa using hip
          have hsum := sum_set_getD_sub child i hilt hip'
          apply ih _ _ (by simpa using hlen)
          simp only [sumDist] at hfuel ⊢
          omega
        · rw [if_neg hgt]
          simp only
          have hd : (randBelow f size k).1 < size := randBelow_lt f hf hs k
          have hlt : (randBelow f size k).1 < child.length := by omega
          have hsum := sum_set_getD_add child _ hlt
          apply ih _ _ (by simpa using hlen)
          simp only [sumDist] at hfuel ⊢
          omega

/-- The repair loop performs at most `fuel` iterations. -/
theorem repairFuel_iters (f : ℕ → ℚ) (size totalBuffers : ℕ) :
    ∀ (fuel : ℕ) (child : Chromosome) (k : ℕ),
      (repairFuel f size totalBuffers fuel child k).2.2 ≤ fuel := by
  intro fuel
  induction fuel with
  | zero => intro child k; simp [repairFuel]
  | succ n ih =>
      intro child k
      rw [repairFuel]
      by_cases heq : child.sum = totalBuffers
      · rw [if_pos heq]; simp
      · rw [if_neg heq]
        by_cases hgt : totalBuffers < child.sum
        · rw [if_pos hgt]
          rcases hidx : child.findIdx? (fun val => 0 < val) with _ | i
          · rw [hidx]
            simp
          · rw [hidx]
            show (repairFuel f size totalBuffers n
              (child.set i (child.getD i 0 - 1)) k).2.2 + 1 ≤ n + 1
            have := ih (child.set i (child.getD i 0 - 1)) k
            omega
        · rw [if_neg hgt]
          simp only
          have := ih (child.set (randBelow f size k).1
            (child.getD (randBelow f size k).1 0 + 1)) (randBelow f size k).2
          omega

/-- `repair` restores the sum constraint and keeps the width, in at most
`sumDist` (the initial absolute deviation) iterations. -/
theorem repair_spec (f : ℕ → ℚ) (hf : ValidStream f) {size : ℕ}
    (hs : 0 < size) (totalBuffers : ℕ) (child : Chromosome) (k : ℕ)
    (hlen : child.length = size) :
    (repair f size totalBuffers child k).1.sum = totalBuffers ∧
    (repair f size totalBuffers child k).1.length = size ∧
    (repair f size totalBuffers child k).2.2 ≤ sumDist child.sum totalBuffers := by
  refine ⟨?_, ?_, ?_⟩
  · exact repairFuel_sum f hf hs totalBuffers _ child k hlen le_rfl
  · exact repairFuel_length f hf hs totalBuffers _ child k hlen
  · exact repairFuel_iters f size totalBuffers _ child k

/-! ### Invariants of crossover and mutation -/

/-- A one-point cut-and-swap of two lists of the same length has that
length. -/
theorem crossover_offspring_length {p1 p2 : List ℕ} {L : ℕ}
    (h1 : p1.length = L) (h2 : p2.length = L) (point : ℕ) (hp : point ≤ L) :
    (p1.take point ++ p2.drop point).length = L := by
  simp [List.length_append, List.length_take, List.length_drop, h1, h2]
  omega

/-- Both crossover offspring satisfy the sum constraint and keep the
parents' common length, for parents of length at least 2 (the claim's
scope; the cut point then exists). -/
theorem crossover_valid_of_two_le (f : ℕ → ℚ) (hf : ValidStream f)
    (totalBuffers : ℕ) {p1 p2 : List ℕ} {L : ℕ}
    (h1 : p1.length = L) (h2 : p2.length = L) (hL : 2 ≤ L) (k : ℕ) :
    ((crossover f totalBuffers p1 p2 k).1.1.sum = totalBuffers ∧
      (crossover f totalBuffers p1 p2 k).1.1.length = L) ∧
    ((crossover f totalBuffers p1 p2 k).1.2.sum = totalBuffers ∧
      (crossover f totalBuffers p1 p2 k).1.2.length = L) := by
  unfold crossover
  rw [if_neg (by omega)]
  simp only
  have hsz : 0 < p1.length := by omega
  have hd : (randBelow f (p1.length - 1) k).1 < p1.length - 1 :=
    randBelow_lt f hf (by omega) k
  have hpt : (randBelow f (p1.length - 1) k).1 + 1 ≤ L := by omega
  have hlen1 := crossover_offspring_length h1 h2 _ hpt
  have hlen2 := crossover_offspring_length h2 h1 _ hpt
  have r1 := repair_spec f hf (show 0 < p1.length by omega) totalBuffers
    (p1.take ((randBelow f (p1.length - 1) k).1 + 1) ++
      p2.drop ((randBelow f (p1.length - 1) k).1 + 1))
    (randBelow f (p1.length - 1) k).2 (by rw [hlen1, h1])
  have r2 := repair_spec f hf (show 0 < p1.length by omega) totalBuffers
    (p2.take ((randBelow f (p1.length - 1) k).1 + 1) ++
      p1.drop ((randBelow f (p1.length - 1) k).1 + 1))
    (repair f p1.length totalBuffers
      (p1.take ((randBelow f (p1.length - 1) k).1 + 1) ++
        p2.drop ((randBelow f (p1.length - 1) k).1 + 1))
      (randBelow f (p1.length - 1) k).2).2.1 (by rw [hlen2, h1])
  refine ⟨⟨r1.1, ?_⟩, ⟨r2.1, ?_⟩⟩
  · rw [r1.2.1, h1]
  · rw [r2.2.1, h1]

/-- Crossover of two valid parents yields two valid offspring (covers the
`size ≤ 1` early-return through the parents' own validity). -/
theorem crossover_valid (f : ℕ → ℚ) (hf : ValidStream f)
    (totalBuffers : ℕ) {p1 p2 : List ℕ} {L : ℕ} (hL : 0 < L)
    (h1 : p1.length = L) (h2 : p2.length = L)
    (hs1 : p1.sum = totalBuffers) (hs2 : p2.sum = totalBuffers) (k : ℕ) :
    ((crossover f totalBuffers p1 p2 k).1.1.sum = totalBuffers ∧
      (crossover f totalBuffers p1 p2 k).1.1.length = L) ∧
    ((crossover f totalBuffers p1 p2 k).1.2.sum = totalBuffers ∧
      (crossover f totalBuffers p1 p2 k).1.2.length = L) := by
  by_cases hone : p1.length ≤ 1
  · unfold crossover
    rw [if_pos hone]
    exact ⟨⟨hs1, h1⟩, ⟨hs2, h2⟩⟩
  · exact crossover_valid_of_two_le f hf totalBuffers h1 h2 (by omega) k

/-- Mutation preserves both the length and the sum of a chromosome. -/
theorem mutate_valid (f : ℕ → ℚ) (hf : ValidStream f) (c : Chromosome)
    (k : ℕ) :
    (mutate f c k).1.length = c.length ∧ (mutate f c k).1.sum = c.sum := by
  unfold mutate
  by_cases hone : c.length ≤ 1
  · rw [if_pos hone]
    exact ⟨rfl, rfl⟩
  · rw [if_neg hone]
    simp only
    by_cases hpos : 0 < c.getD (randBelow f c.length k).1 0
    · rw [if_pos hpos]
      have hlc : 0 < c.length := by omega
      have hi1 : (randBelow f c.length k).1 < c.length :=
        randBelow_lt f hf hlc k
      have hi2 : (randBelow f c.length (randBelow f c.length k).2).1 <
          c.length := randBelow_lt f hf hlc _
      set i1 := (randBelow f c.length k).1 with hi1def
      set i2 := (randBelow f c.length (randBelow f c.length k).2).1 with hi2def
      have hdec := sum_set_getD_sub c i1 hi1 hpos
      have hi2' : i2 < (c.set i1 (c.getD i1 0 - 1)).length := by
        simpa using hi2
      have hinc := sum_set_getD_add (c.set i1 (c.getD i1 0 - 1)) i2 hi2'
      constructor
      · simp
      · rw [hinc]
        omega
    · rw [if_neg hpos]
      exact ⟨rfl, rfl⟩

/-! ### Invariants of tournament selection -/

/-- An in-range `getD` returns a member of the list. -/
theorem getD_mem_of_lt {α : Type*} (l : List α) (i : ℕ) (d : α)
    (h : i < l.length) : l.getD i d ∈ l := by
  rw [List.getD_eq_getElem l d h]
  exact List.getElem_mem h

/-- The tournament loop only ever stores population members (or keeps an
accumulator that already is one). -/
theorem tournamentAux_mem (f : ℕ → ℚ) (hf : ValidStream f)
    (population : Population) (hne : population ≠ [])
    (fitnesses : List EReal) :
    ∀ (t : ℕ) (best : Option Chromosome) (bestFitness : EReal) (k : ℕ),
      (∀ c, best = some c → c ∈ population) →
      ∀ c, (tournamentAux f population fitnesses t best bestFitness k).1 =
        some c → c ∈ population := by
  intro t
  induction t with
  | zero => intro best bestFitness k hbest c hc; exact hbest c hc
  | succ n ih =>
      intro best bestFitness k hbest c hc
      rw [tournamentAux] at hc
      have hlen : 0 < population.length := List.length_pos.mpr hne
      have hd : (randBelow f population.length k).1 < population.length :=
        randBelow_lt f hf hlen k
      by_cases hcmp : bestFitness <
          fitnesses.getD (randBelow f population.length k).1 ⊥
      · rw [if_pos hcmp] at hc
        refine ih _ _ _ ?_ c hc
        intro c' hc'
        have : population.getD (randBelow f population.length k).1 [] = c' := by
          injection hc'
        rw [← this]
        exact getD_mem_of_lt _ _ _ hd
      · rw [if_neg hcmp] at hc
        exact ih _ _ _ hbest c hc

/-- Once the tournament accumulator is non-null it stays non-null. -/
theorem tournamentAux_isSome (f : ℕ → ℚ) (population : Population)
    (fitnesses : List EReal) :
    ∀ (t : ℕ) (best : Option Chromosome) (bestFitness : EReal) (k : ℕ),
      best.isSome →
      (tournamentAux f population fitnesses t best bestFitness k).1.isSome := by
  intro t
  induction t with
  | zero => intro best bestFitness k h; exact h
  | succ n ih =>
      intro best bestFitness k h
      rw [tournamentAux]
      by_cases hcmp : bestFitness <
          fitnesses.getD (randBelow f population.length k).1 ⊥
      · rw [if_pos hcmp]
        exact ih _ _ _ (by simp)
      · rw [if_neg hcmp]
        exact ih _ _ _ h

/-- With at least one tournament entrant and every fitness strictly above
`-∞`, the null accumulator is overwritten on the first draw, and the
selection returns a member of the population. -/
theorem tournamentSelection_some (f : ℕ → ℚ) (hf : ValidStream f)
    (population : Population) (hne : population ≠ [])
    (fitnesses : List EReal) (hlen : fitnesses.length = population.length)
    (hpos : ∀ x ∈ fitnesses, ⊥ < x)
    {tournamentSize : ℕ} (hT : 1 ≤ tournamentSize) (k : ℕ) :
    ∃ c ∈ population,
      (tournamentSelection f population fitnesses tournamentSize k).1 =
        some c := by
  have hlp : 0 < population.length := List.length_pos.mpr hne
  have hd : (randBelow f population.length k).1 < population.length :=
    randBelow_lt f hf hlp k
  have hdf : (randBelow f population.length k).1 < fitnesses.length := by
    omega
  have hfit : ⊥ < fitnesses.getD (randBelow f population.length k).1 ⊥ := by
    apply hpos
    exact getD_mem_of_lt _ _ _ hdf
  obtain ⟨t, rfl⟩ : ∃ t, tournamentSize = t + 1 :=
    ⟨tournamentSize - 1, by omega⟩
  unfold tournamentSelection
  rw [tournamentAux, if_pos hfit]
  have hsome := tournamentAux_isSome f population fitnesses t
    (some (population.getD (randBelow f population.length k).1 []))
    (fitnesses.getD (randBelow f population.length k).1 ⊥)
    (randBelow f population.length k).2 (by simp)
  obtain ⟨c, hc⟩ := Option.isSome_iff_exists.mp hsome
  refine ⟨c, ?_, hc⟩
  apply tournamentAux_mem f hf population hne fitnesses t _ _ _ _ c hc
  intro c' hc'
  have : population.getD (randBelow f population.length k).1 [] = c' := by
    injection hc'
  rw [← this]
  exact getD_mem_of_lt _ _ _ hd

/-- If every drawn fitness is `-∞`, the strict comparison never fires and
the tournament loop returns the untouched `null` accumulator. -/
theorem tournamentAux_none (f : ℕ → ℚ) (population : Population)
    (fitnesses : List EReal) :
    ∀ (t k : ℕ),
      (∀ i < t, fitnesses.getD
        (drawIndex f population.length (k + i)) ⊥ = ⊥) →
      (tournamentAux f population fitnesses t none ⊥ k).1 = none := by
  intro t
  induction t with
  | zero => intro k _; rfl
  | succ n ih =>
      intro k hdrawn
      rw [tournamentAux]
      have h0 : fitnesses.getD (randBelow f population.length k).1 ⊥ = ⊥ := by
        have := hdrawn 0 (by omega)
        simpa [drawIndex] using this
      rw [h0, if_neg (lt_irrefl ⊥)]
      apply ih
      intro i hi
      have := hdrawn (i + 1) (by omega)
      simpa [randBelow, Nat.add_assoc, Nat.add_comm 1 i] using this

/-! ### Invariants of the evaluation loop -/

/-- The evaluation loop accumulates exactly the sum of the fitnesses. -/
theorem evalLoop_total :
    ∀ (l : List (Chromosome × ℝ)) (cb : EReal) (ci : Option Chromosome)
      (t : ℝ), (evalLoop l cb ci t).2.2 = t + (l.map Prod.snd).sum := by
  intro l
  induction l with
  | nil => intro cb ci t; simp [evalLoop]
  | cons hd tl ih =>
      intro cb ci t
      obtain ⟨ind, fit⟩ := hd
      rw [evalLoop]
      by_cases hcmp : cb < (fit : EReal)
      · rw [if_pos hcmp, ih]
        simp [add_assoc]
      · rw [if_neg hcmp, ih]
        simp [add_assoc]

/-- The tracked best individual of the evaluation loop comes from the
scanned list (or was the initial accumulator). -/
theorem evalLoop_mem :
    ∀ (l : List (Chromosome × ℝ)) (cb : EReal) (ci : Option Chromosome)
      (t : ℝ) (c : Chromosome),
      (evalLoop l cb ci t).2.1 = some c →
      c ∈ l.map Prod.fst ∨ ci = some c := by
  intro l
  induction l with
  | nil => intro cb ci t c hc; exact Or.inr hc
  | cons hd tl ih =>
      intro cb ci t c hc
      obtain ⟨ind, fit⟩ := hd
      rw [evalLoop] at hc
      by_cases hcmp : cb < (fit : EReal)
      · rw [if_pos hcmp] at hc
        rcases ih _ _ _ c hc with h | h
        · exact Or.inl (List.mem_cons_of_mem _ h)
        · left
          have : ind = c := by injection h
          simp [this]
      · rw [if_neg hcmp] at hc
        rcases ih _ _ _ c hc with h | h
        · exact Or.inl (List.mem_cons_of_mem _ h)
        · exact Or.inr h

/-- The evaluation loop maintains the coupling "no individual tracked means
the best fitness is still `-∞`". -/
theorem evalLoop_none_bot :
    ∀ (l : List (Chromosome × ℝ)) (cb : EReal) (ci : Option Chromosome)
      (t : ℝ), (ci = none → cb = ⊥) →
      (evalLoop l cb ci t).2.1 = none → (evalLoop l cb ci t).1 = ⊥ := by
  intro l
  induction l with
  | nil => intro cb ci t hinv hnone; exact hinv hnone
  | cons hd tl ih =>
      intro cb ci t hinv hnone
      obtain ⟨ind, fit⟩ := hd
      rw [evalLoop] at hnone ⊢
      by_cases hcmp : cb < (fit : EReal)
      · rw [if_pos hcmp] at hnone ⊢
        exact ih _ _ _ (by simp) hnone
      · rw [if_neg hcmp] at hnone ⊢
        exact ih _ _ _ hinv hnone

/-! ### Invariants of the reproduction loop -/

/-- A possibly-applied mutation keeps a chromosome valid. -/
theorem maybe_mutate_valid (f : ℕ → ℚ) (hf : ValidStream f) {L T : ℕ}
    {c : Chromosome} (h : c.length = L ∧ c.sum = T) (P : Prop)
    [Decidable P] (k : ℕ) :
    (if P then mutate f c k else (c, k)).1.length = L ∧
      (if P then mutate f c k else (c, k)).1.sum = T := by
  split
  · exact ⟨((mutate_valid f hf c k).1).trans h.1,
      ((mutate_valid f hf c k).2).trans h.2⟩
  · exact h

/-- Every individual appended by one iteration of the reproduction loop is
a valid chromosome (tournament parents are population members; crossover
with repair and mutation preserve validity). -/
theorem reproduceStep_valid (f : ℕ → ℚ) (hf : ValidStream f)
    (population : Population) (hne : population ≠ [])
    (fitnesses : List EReal) (hfitlen : fitnesses.length = population.length)
    (hfitpos : ∀ x ∈ fitnesses, ⊥ < x)
    {tournamentSize : ℕ} (hT : 1 ≤ tournamentSize)
    (crossoverRate mutationRate : ℚ) {totalBuffers L : ℕ} (hL : 0 < L)
    (hmem : ∀ c ∈ population, c.length = L ∧ c.sum = totalBuffers)
    (popSize curLen k : ℕ) :
    ∀ c ∈ (reproduceStep f population fitnesses tournamentSize crossoverRate
      mutationRate totalBuffers popSize curLen k).1,
      c.length = L ∧ c.sum = totalBuffers := by
  obtain ⟨p1, hp1mem, hp1⟩ := tournamentSelection_some f hf population hne
    fitnesses hfitlen hfitpos hT k
  simp only [reproduceStep, hp1, Option.getD_some]
  by_cases hg : (randFloat f (tournamentSelection f population fitnesses
      tournamentSize k).2).1 < crossoverRate
  · rw [if_pos hg]
    obtain ⟨p2, hp2mem, hp2⟩ := tournamentSelection_some f hf population hne
      fitnesses hfitlen hfitpos hT
      (randFloat f (tournamentSelection f population fitnesses
        tournamentSize k).2).2
    rw [hp2]
    simp only [Option.getD_some]
    have hco := crossover_valid f hf totalBuffers hL (hmem p1 hp1mem).1
      (hmem p2 hp2mem).1 (hmem p1 hp1mem).2 (hmem p2 hp2mem).2
      (tournamentSelection f population fitnesses tournamentSize
        (randFloat f (tournamentSelection f population fitnesses
          tournamentSize k).2).2).2
    have hm2 := maybe_mutate_valid f hf ⟨hco.2.2, hco.2.1⟩
      ((randFloat f (crossover f totalBuffers p1 p2
        (tournamentSelection f population fitnesses tournamentSize
          (randFloat f (tournamentSelection f population fitnesses
            tournamentSize k).2).2).2).2).1 < mutationRate)
      (randFloat f (crossover f totalBuffers p1 p2
        (tournamentSelection f population fitnesses tournamentSize
          (randFloat f (tournamentSelection f population fitnesses
            tournamentSize k).2).2).2).2).2
    intro c hc
    rw [List.mem_append] at hc
    rcases hc with hc | hc
    · by_cases hroom : curLen < popSize
      · rw [if_pos hroom] at hc
        simp only [List.mem_singleton] at hc
        subst hc
        exact ⟨hm2.1, hm2.2⟩
      · rw [if_neg hroom] at hc
        simp at hc
    · simp only [List.mem_singleton] at hc
      subst hc
      exact maybe_mutate_valid f hf ⟨hco.1.2, hco.1.1⟩ _ _
  · rw [if_neg hg]
    intro c hc
    simp only [List.mem_singleton] at hc
    subst hc
    exact maybe_mutate_valid f hf ⟨(hmem p1 hp1mem).1, (hmem p1 hp1mem).2⟩ _ _

/-- The reproduction loop exits only once the new population has reached
the requested size. -/
theorem reproduce_length_aux (f : ℕ → ℚ) (population : Population)
    (fitnesses : List EReal) (tournamentSize : ℕ)
    (crossoverRate mutationRate : ℚ) (totalBuffers popSize : ℕ) :
    ∀ (n : ℕ) (newPopulation : List Chromosome) (k : ℕ),
      popSize - newPopulation.length ≤ n →
      popSize ≤ (reproduce f population fitnesses tournamentSize
        crossoverRate mutationRate totalBuffers popSize
        newPopulation k).1.length := by
  intro n
  induction n with
  | zero =>
      intro newPopulation k hn
      rw [reproduce]
      rw [dif_neg (by omega)]
      show popSize ≤ newPopulation.length
      omega
  | succ m ih =>
      intro newPopulation k hn
      rw [reproduce]
      by_cases h : newPopulation.length < popSize
      · rw [dif_pos h]
        apply ih
        have hstep := reproduceStep_length_pos f population fitnesses
          tournamentSize crossoverRate mutationRate totalBuffers popSize
          newPopulation.length k
        simp only [List.length_append]
        omega
      · rw [dif_neg h]
        show popSize ≤ newPopulation.length
        omega

/-- `reproduce` always returns at least `popSize` individuals. -/
theorem reproduce_length (f : ℕ → ℚ) (population : Population)
    (fitnesses : List EReal) (tournamentSize : ℕ)
    (crossoverRate mutationRate : ℚ) (totalBuffers popSize : ℕ)
    (newPopulation : List Chromosome) (k : ℕ) :
    popSize ≤ (reproduce f population fitnesses tournamentSize
      crossoverRate mutationRate totalBuffers popSize
      newPopulation k).1.length :=
  reproduce_length_aux f population fitnesses tournamentSize crossoverRate
    mutationRate totalBuffers popSize (popSize - newPopulation.length)
    newPopulation k le_rfl

/-- Every individual of the population built by the reproduction loop is
valid, provided the seed individuals are. -/
theorem reproduce_valid_aux (f : ℕ → ℚ) (hf : ValidStream f)
    (population : Population) (hne : population ≠ [])
    (fitnesses : List EReal) (hfitlen : fitnesses.length = population.length)
    (hfitpos : ∀ x ∈ fitnesses, ⊥ < x)
    {tournamentSize : ℕ} (hT : 1 ≤ tournamentSize)
    (crossoverRate mutationRate : ℚ) {totalBuffers L : ℕ} (hL : 0 < L)
    (hmem : ∀ c ∈ population, c.length = L ∧ c.sum = totalBuffers)
    (popSize : ℕ) :
    ∀ (n : ℕ) (newPopulation : List Chromosome) (k : ℕ),
      popSize - newPopulation.length ≤ n →
      (∀ c ∈ newPopulation, c.length = L ∧ c.sum = totalBuffers) →
      ∀ c ∈ (reproduce f population fitnesses tournamentSize
        crossoverRate mutationRate totalBuffers popSize
        newPopulation k).1,
        c.length = L ∧ c.sum = totalBuffers := by
  intro n
  induction n with
  | zero =>
      intro newPopulation k hn hseed
      rw [reproduce, dif_neg (by omega)]
      exact hseed
  | succ m ih =>
      intro newPopulation k hn hseed
      rw [reproduce]
      by_cases h : newPopulation.length < popSize
      · rw [dif_pos h]
        apply ih
        · have hstep := reproduceStep_length_pos f population fitnesses
            tournamentSize crossoverRate mutationRate totalBuffers popSize
            newPopulation.length k
          simp only [List.length_append]
          omega
        · intro c hc
          rw [List.mem_append] at hc
          rcases hc with hc | hc
          · exact hseed c hc
          · exact reproduceStep_valid f hf population hne fitnesses hfitlen
              hfitpos hT crossoverRate mutationRate hL hmem popSize
              newPopulation.length k c hc
      · rw [dif_neg h]
        exact hseed

/-! ### Characterisation of one generation -/

/-- The progress record of a generation carries the 1-based generation
index. -/
theorem gaStep_generation (w1 w2 : ℝ) (totalBuffers popSize tournamentSize : ℕ)
    (mutationRate crossoverRate : ℚ) (f : ℕ → ℚ) (genIdx : ℕ) (s : GAState) :
    (gaStep w1 w2 totalBuffers popSize tournamentSize mutationRate
      crossoverRate f genIdx s).1.generation = genIdx + 1 := rfl

/-- The progress record of a generation reports the best-ever fitness as of
the end of that generation's evaluation. -/
theorem gaStep_progress_bestFitness (w1 w2 : ℝ)
    (totalBuffers popSize tournamentSize : ℕ)
    (mutationRate crossoverRate : ℚ) (f : ℕ → ℚ) (genIdx : ℕ) (s : GAState) :
    (gaStep w1 w2 totalBuffers popSize tournamentSize mutationRate
      crossoverRate f genIdx s).1.bestFitness =
    (gaStep w1 w2 totalBuffers popSize tournamentSize mutationRate
      crossoverRate f genIdx s).2.bestFitnessEver := rfl

/-- The best-ever fitness never decreases across a generation (it is
updated only under strict improvement). -/
theorem gaStep_bfe_mono (w1 w2 : ℝ) (totalBuffers popSize tournamentSize : ℕ)
    (mutationRate crossoverRate : ℚ) (f : ℕ → ℚ) (genIdx : ℕ) (s : GAState) :
    s.bestFitnessEver ≤ (gaStep w1 w2 totalBuffers popSize tournamentSize
      mutationRate crossoverRate f genIdx s).2.bestFitnessEver := by
  simp only [gaStep]
  by_cases hc : s.bestFitnessEver < (evalLoop (s.population.zip
      (s.population.map (fun ind => calculateFitness ind w1 w2))) ⊥ none 0).1
  · rw [if_pos hc]
    exact le_of_lt hc
  · rw [if_neg hc]

/-- The replacement population built by a generation has exactly `popSize`
members (the loop overshoots by at most one and is truncated). -/
theorem gaStep_pop_length (w1 w2 : ℝ)
    (totalBuffers popSize tournamentSize : ℕ)
    (mutationRate crossoverRate : ℚ) (f : ℕ → ℚ) (genIdx : ℕ) (s : GAState) :
    (gaStep w1 w2 totalBuffers popSize tournamentSize mutationRate
      crossoverRate f genIdx s).2.population.length = popSize := by
  simp only [gaStep]
  rw [List.length_take]
  apply Nat.min_eq_left
  apply reproduce_length

/-- The reported average fitness is the sum of the evaluated population's
fitnesses divided by `popSize` (the length of the truncated replacement
population). -/
theorem gaStep_avgFitness (w1 w2 : ℝ)
    (totalBuffers popSize tournamentSize : ℕ)
    (mutationRate crossoverRate : ℚ) (f : ℕ → ℚ) (genIdx : ℕ) (s : GAState) :
    (gaStep w1 w2 totalBuffers popSize tournamentSize mutationRate
      crossoverRate f genIdx s).1.avgFitness =
    ((s.population.map (fun ind => calculateFitness ind w1 w2)).sum) /
      (popSize : ℝ) := by
  have hlen := gaStep_pop_length w1 w2 totalBuffers popSize tournamentSize
    mutationRate crossoverRate f genIdx s
  simp only [gaStep] at hlen ⊢
  rw [hlen]
  rw [evalLoop_total]
  rw [List.map_snd_zip]
  · rw [zero_add]
  · simp


/-- Definitional reading of the best-ever individual after a generation:
the conditionally updated accumulator. -/
theorem gaStep_bestEver_def (w1 w2 : ℝ)
    (totalBuffers popSize tournamentSize : ℕ)
    (mutationRate crossoverRate : ℚ) (f : ℕ → ℚ) (genIdx : ℕ) (s : GAState) :
    (gaStep w1 w2 totalBuffers popSize tournamentSize mutationRate
      crossoverRate f genIdx s).2.bestEver =
    (if s.bestFitnessEver < (evalLoop (s.population.zip
        (s.population.map (fun ind => calculateFitness ind w1 w2))) ⊥ none
        0).1
      then ((evalLoop (s.population.zip (s.population.map
        (fun ind => calculateFitness ind w1 w2))) ⊥ none 0).2.1.getD [],
        (evalLoop (s.population.zip (s.population.map
          (fun ind => calculateFitness ind w1 w2))) ⊥ none 0).1)
      else (s.bestEver, s.bestFitnessEver)).1 := rfl

/-- Definitional reading of the replacement population after a generation:
the truncated output of the reproduction loop seeded with the elitist
individual. -/
theorem gaStep_population_def (w1 w2 : ℝ)
    (totalBuffers popSize tournamentSize : ℕ)
    (mutationRate crossoverRate : ℚ) (f : ℕ → ℚ) (genIdx : ℕ) (s : GAState) :
    (gaStep w1 w2 totalBuffers popSize tournamentSize mutationRate
      crossoverRate f genIdx s).2.population =
    (reproduce f s.population
      ((s.population.map (fun ind => calculateFitness ind w1 w2)).map
        Real.toEReal)
      tournamentSize crossoverRate mutationRate totalBuffers popSize
      [(gaStep w1 w2 totalBuffers popSize tournamentSize mutationRate
        crossoverRate f genIdx s).2.bestEver] s.pos).1.take popSize := rfl

/-- A generation step preserves the population invariant: size `popSize`,
all members valid, and a valid best-ever individual. -/
theorem gaStep_inv (w1 w2 : ℝ) {totalBuffers popSize tournamentSize L : ℕ}
    (mutationRate crossoverRate : ℚ) (f : ℕ → ℚ) (hf : ValidStream f)
    (hL : 0 < L) (hpop : 0 < popSize) (hT : 1 ≤ tournamentSize)
    (genIdx : ℕ) (s : GAState)
    (hlen : s.population.length = popSize)
    (hmem : ∀ c ∈ s.population, c.length = L ∧ c.sum = totalBuffers)
    (hbest : s.bestEver.length = L ∧ s.bestEver.sum = totalBuffers) :
    (gaStep w1 w2 totalBuffers popSize tournamentSize mutationRate
      crossoverRate f genIdx s).2.population.length = popSize ∧
    (∀ c ∈ (gaStep w1 w2 totalBuffers popSize tournamentSize mutationRate
      crossoverRate f genIdx s).2.population,
        c.length = L ∧ c.sum = totalBuffers) ∧
    ((gaStep w1 w2 totalBuffers popSize tournamentSize mutationRate
      crossoverRate f genIdx s).2.bestEver.length = L ∧
     (gaStep w1 w2 totalBuffers popSize tournamentSize mutationRate
      crossoverRate f genIdx s).2.bestEver.sum = totalBuffers) := by
  have hne : s.population ≠ [] := by
    intro h
    rw [h] at hlen
    simp at hlen
    omega
  have hbest' : (gaStep w1 w2 totalBuffers popSize tournamentSize
      mutationRate crossoverRate f genIdx s).2.bestEver.length = L ∧
      (gaStep w1 w2 totalBuffers popSize tournamentSize mutationRate
        crossoverRate f genIdx s).2.bestEver.sum = totalBuffers := by
    rw [gaStep_bestEver_def]
    by_cases hc : s.bestFitnessEver < (evalLoop (s.population.zip
        (s.population.map (fun ind => calculateFitness ind w1 w2))) ⊥ none
        0).1
    · rw [if_pos hc]
      rcases hind : (evalLoop (s.population.zip (s.population.map
          (fun ind => calculateFitness ind w1 w2))) ⊥ none 0).2.1
        with _ | c
      · exfalso
        have hbot := evalLoop_none_bot (s.population.zip (s.population.map
          (fun ind => calculateFitness ind w1 w2))) ⊥ none 0 (by simp) hind
        rw [hbot] at hc
        exact absurd hc (by simp)
      · have hcm := evalLoop_mem (s.population.zip (s.population.map
          (fun ind => calculateFitness ind w1 w2))) ⊥ none 0 c hind
        rcases hcm with hcm | hcm
        · rw [List.map_fst_zip _ _ (by simp)] at hcm
          have := hmem c hcm
          simpa using this
        · simp at hcm
    · rw [if_neg hc]
      exact hbest
  refine ⟨gaStep_pop_length w1 w2 totalBuffers popSize tournamentSize
    mutationRate crossoverRate f genIdx s, ?_, hbest'⟩
  intro c hc
  rw [gaStep_population_def] at hc
  have hc' := List.take_subset popSize _ hc
  refine reproduce_valid_aux f hf s.population hne
    ((s.population.map (fun ind => calculateFitness ind w1 w2)).map
      Real.toEReal)
    (by simp) ?_ hT crossoverRate mutationRate hL hmem popSize popSize _
    s.pos (by omega) ?_ c hc'
  · intro x hx
    simp only [List.mem_map] at hx
    obtain ⟨r, _, rfl⟩ := hx
    exact EReal.bot_lt_coe _
  · intro c' hc''
    simp only [List.mem_singleton] at hc''
    subst hc''
    exact hbest'

/-! ### The generation loop -/

/-- Monotonicity bundle for the generation loop: the best-ever fitness at
entry bounds everything, each reported best fitness is bounded by the final
one, and the reported best fitnesses form a non-decreasing chain. -/
theorem gaLoop_mono (w1 w2 : ℝ) (totalBuffers popSize tournamentSize : ℕ)
    (mutationRate crossoverRate : ℚ) (f : ℕ → ℚ) :
    ∀ (rem genIdx : ℕ) (s : GAState),
      s.bestFitnessEver ≤ (gaLoop w1 w2 totalBuffers popSize tournamentSize
        mutationRate crossoverRate f rem genIdx s).2.bestFitness ∧
      (∀ pd ∈ (gaLoop w1 w2 totalBuffers popSize tournamentSize mutationRate
        crossoverRate f rem genIdx s).1,
        s.bestFitnessEver ≤ pd.bestFitness) ∧
      (∀ pd ∈ (gaLoop w1 w2 totalBuffers popSize tournamentSize mutationRate
        crossoverRate f rem genIdx s).1,
        pd.bestFitness ≤ (gaLoop w1 w2 totalBuffers popSize tournamentSize
          mutationRate crossoverRate f rem genIdx s).2.bestFitness) ∧
      List.Chain' (· ≤ ·) ((gaLoop w1 w2 totalBuffers popSize tournamentSize
        mutationRate crossoverRate f rem genIdx s).1.map
          ProgressData.bestFitness) := by
  intro rem
  induction rem with
  | zero =>
      intro genIdx s
      refine ⟨le_rfl, ?_, ?_, ?_⟩ <;> simp [gaLoop]
  | succ n ih =>
      intro genIdx s
      have hmono := gaStep_bfe_mono w1 w2 totalBuffers popSize tournamentSize
        mutationRate crossoverRate f genIdx s
      have hpb := gaStep_progress_bestFitness w1 w2 totalBuffers popSize
        tournamentSize mutationRate crossoverRate f genIdx s
      obtain ⟨iha, ihb, ihc, ihd⟩ := ih (genIdx + 1)
        (gaStep w1 w2 totalBuffers popSize tournamentSize mutationRate
          crossoverRate f genIdx s).2
      simp only [gaLoop]
      refine ⟨le_trans hmono iha, ?_, ?_, ?_⟩
      · intro pd hpd
        rcases List.mem_cons.mp hpd with rfl | hpd
        · rw [hpb]
          exact hmono
        · exact le_trans hmono (ihb pd hpd)
      · intro pd hpd
        rcases List.mem_cons.mp hpd with rfl | hpd
        · rw [hpb]
          exact iha
        · exact ihc pd hpd
      · rw [List.map_cons]
        rw [List.chain'_cons']
        refine ⟨?_, ihd⟩
        intro b hb
        rw [List.head?_map] at hb
        simp only [Option.mem_def, Option.map_eq_some'] at hb
        obtain ⟨pd0, hpd0, rfl⟩ := hb
        have hpd0mem : pd0 ∈ (gaLoop w1 w2 totalBuffers popSize
            tournamentSize mutationRate crossoverRate f n (genIdx + 1)
            (gaStep w1 w2 totalBuffers popSize tournamentSize mutationRate
              crossoverRate f genIdx s).2).1 :=
          List.mem_of_mem_head? hpd0
        rw [hpb]
        exact ihb pd0 hpd0mem

/-- The generation loop emits one progress record per generation, numbered
consecutively starting at `genIdx + 1`. -/
theorem gaLoop_generations (w1 w2 : ℝ)
    (totalBuffers popSize tournamentSize : ℕ)
    (mutationRate crossoverRate : ℚ) (f : ℕ → ℚ) :
    ∀ (rem genIdx : ℕ) (s : GAState),
      ((gaLoop w1 w2 totalBuffers popSize tournamentSize mutationRate
        crossoverRate f rem genIdx s).1.map ProgressData.generation) =
      List.range' (genIdx + 1) rem := by
  intro rem
  induction rem with
  | zero => intro genIdx s; simp [gaLoop]
  | succ n ih =>
      intro genIdx s
      simp only [gaLoop, List.map_cons]
      rw [gaStep_generation, ih]
      rfl

/-- The reported average fitnesses of a run are exactly the per-generation
averages of the evaluated populations recorded by `gaStates`. -/
theorem gaLoop_avgFitness_trace (w1 w2 : ℝ)
    (totalBuffers popSize tournamentSize : ℕ)
    (mutationRate crossoverRate : ℚ) (f : ℕ → ℚ) :
    ∀ (rem genIdx : ℕ) (s : GAState),
      ((gaLoop w1 w2 totalBuffers popSize tournamentSize mutationRate
        crossoverRate f rem genIdx s).1.map ProgressData.avgFitness) =
      (gaStates w1 w2 totalBuffers popSize tournamentSize mutationRate
        crossoverRate f rem genIdx s).map
        (fun P => ((P.map (fun ind => calculateFitness ind w1 w2)).sum) /
          (popSize : ℝ)) := by
  intro rem
  induction rem with
  | zero => intro genIdx s; simp [gaLoop, gaStates]
  | succ n ih =>
      intro genIdx s
      simp only [gaLoop, gaStates, List.map_cons]
      rw [gaStep_avgFitness, ih]

/-- Every population recorded along a run is entirely made of valid
chromosomes, given a valid entry state. -/
theorem gaStates_valid (w1 w2 : ℝ)
    {totalBuffers popSize tournamentSize L : ℕ}
    (mutationRate crossoverRate : ℚ) (f : ℕ → ℚ) (hf : ValidStream f)
    (hL : 0 < L) (hpop : 0 < popSize) (hT : 1 ≤ tournamentSize) :
    ∀ (rem genIdx : ℕ) (s : GAState),
      s.population.length = popSize →
      (∀ c ∈ s.population, c.length = L ∧ c.sum = totalBuffers) →
      (s.bestEver.length = L ∧ s.bestEver.sum = totalBuffers) →
      ∀ P ∈ gaStates w1 w2 totalBuffers popSize tournamentSize mutationRate
        crossoverRate f rem genIdx s,
        ∀ c ∈ P, c.length = L ∧ c.sum = totalBuffers := by
  intro rem
  induction rem with
  | zero => intro genIdx s _ _ _ P hP; simp [gaStates] at hP
  | succ n ih =>
      intro genIdx s hlen hmem hbest P hP
      simp only [gaStates] at hP
      rcases List.mem_cons.mp hP with rfl | hP
      · exact hmem
      · obtain ⟨hlen', hmem', hbest'⟩ := gaStep_inv w1 w2 mutationRate
          crossoverRate f hf hL hpop hT genIdx s hlen hmem hbest
        exact ih (genIdx + 1) _ hlen' hmem' hbest' P hP

/-! ### Claim theorems -/

/-- C4 counterexample: the all-zero vector of length 0 (the empty
chromosome) is sent to 0 by `predictThroughput`, not 50, refuting the claim
at `L = 0`. -/
theorem c4_counterexample :
    predictThroughput (List.replicate 0 0) = 0 ∧ (0 : ℝ) ≠ 50 := by
  constructor
  · simp [predictThroughput]
  · norm_num

/-- C4 (amended): for every length `L ≥ 1`, `predictThroughput` applied to
the all-zero vector of length `L` returns exactly 50 (at length 0 the
empty-chromosome branch returns 0 instead). -/
theorem c4_zero_vector (L : ℕ) (hL : 1 ≤ L) :
    predictThroughput (List.replicate L 0) = 50 := by
  simp only [predictThroughput]
  rw [if_neg (by simp; omega)]
  rw [if_pos (by simp)]

/-- C4 witness: the amended claim at the concrete length 3. -/
theorem c4_zero_vector_witness :
    predictThroughput (List.replicate 3 0) = 50 :=
  c4_zero_vector 3 (by norm_num)

/-- C8: `predictThroughput` is invariant under any permutation of a
chromosome's values; it depends only on the multiset of entries (through
their count, sum, and sum of squared deviations). -/
theorem c8_predictThroughput_perm (l1 l2 : Chromosome) (h : l1.Perm l2) :
    predictThroughput l1 = predictThroughput l2 := by
  have hlen := h.length_eq
  have hsum := h.sum_eq
  have hmap : ∀ g : ℕ → ℝ, (l1.map g).sum = (l2.map g).sum := fun g =>
    (h.map g).sum_eq
  simp only [predictThroughput, hlen, hsum, hmap]

/-- C8 witness: permutation invariance at the concrete pair
`[1, 2] ~ [2, 1]`. -/
theorem c8_predictThroughput_perm_witness :
    predictThroughput [1, 2] = predictThroughput [2, 1] :=
  c8_predictThroughput_perm [1, 2] [2, 1] (by decide)

/-- C9: with a non-empty population, a parallel fitness array, and at least
one tournament entrant: if every fitness is strictly above `-∞`, the
null-initialised accumulator is overwritten on the very first draw and the
selection returns (non-null) a member of the population; if instead every
drawn fitness equals `-∞`, the strict comparison never fires and the
function returns `null` despite its declared non-null return type. -/
theorem c9_tournamentSelection_safety (f : ℕ → ℚ) (hf : ValidStream f)
    (population : Population) (hne : population ≠ [])
    (fitnesses : List EReal) (hlen : fitnesses.length = population.length)
    (tournamentSize k : ℕ) (hT : 1 ≤ tournamentSize) :
    ((∀ x ∈ fitnesses, ⊥ < x) →
      (tournamentSelection f population fitnesses tournamentSize k =
        tournamentAux f population fitnesses (tournamentSize - 1)
          (some (population.getD (drawIndex f population.length k) []))
          (fitnesses.getD (drawIndex f population.length k) ⊥) (k + 1)) ∧
      ∃ c ∈ population,
        (tournamentSelection f population fitnesses tournamentSize k).1 =
          some c) ∧
    ((∀ i < tournamentSize,
        fitnesses.getD (drawIndex f population.length (k + i)) ⊥ = ⊥) →
      (tournamentSelection f population fitnesses tournamentSize k).1 =
        none) := by
  constructor
  · intro hpos
    have hlp : 0 < population.length := List.length_pos.mpr hne
    have hd := randBelow_lt f hf hlp k
    have hdf : drawIndex f population.length k < fitnesses.length := by
      simp only [drawIndex]
      omega
    have hfit : ⊥ < fitnesses.getD (drawIndex f population.length k) ⊥ :=
      hpos _ (getD_mem_of_lt _ _ _ hdf)
    constructor
    · obtain ⟨t, ht⟩ : ∃ t, tournamentSize = t + 1 :=
        ⟨tournamentSize - 1, by omega⟩
      rw [ht]
      simp only [drawIndex] at hfit ⊢
      unfold tournamentSelection
      rw [tournamentAux, if_pos hfit]
      rfl
    · exact tournamentSelection_some f hf population hne fitnesses hlen hpos
        hT k
  · intro hbot
    exact tournamentAux_none f population fitnesses tournamentSize k hbot

/-- C9 witness: the theorem instantiated at a concrete singleton population
and fitness array. -/
theorem c9_tournamentSelection_safety_witness :
    ((∀ x ∈ [((1 : ℝ) : EReal)], ⊥ < x) →
      (tournamentSelection (fun _ => 0) [[0]] [((1 : ℝ) : EReal)] 1 0 =
        tournamentAux (fun _ => 0) [[0]] [((1 : ℝ) : EReal)] (1 - 1)
          (some ([[0]].getD (drawIndex (fun _ => 0) [[0]].length 0) []))
          ([((1 : ℝ) : EReal)].getD
            (drawIndex (fun _ => 0) [[0]].length 0) ⊥) (0 + 1)) ∧
      ∃ c ∈ [[0]],
        (tournamentSelection (fun _ => 0) [[0]] [((1 : ℝ) : EReal)] 1 0).1 =
          some c) ∧
    ((∀ i < 1,
        [((1 : ℝ) : EReal)].getD
          (drawIndex (fun _ => 0) [[0]].length (0 + i)) ⊥ = ⊥) →
      (tournamentSelection (fun _ => 0) [[0]] [((1 : ℝ) : EReal)] 1 0).1 =
        none) :=
  c9_tournamentSelection_safety (fun _ => 0)
    (fun _ => ⟨le_refl 0, by norm_num⟩) [[0]] (by simp)
    [((1 : ℝ) : EReal)] rfl 1 0 le_rfl

/-- C5: for parents of equal length `L ≥ 2` (entries non-negative by the
`ℕ` embedding) and any target total, the crossover produces its two
offspring through the repair loop; the loop terminates for each offspring
with its sum equal to the target, and the number of loop iterations is
bounded by that offspring's initial absolute deviation from the target. -/
theorem c5_repair_termination (f : ℕ → ℚ) (hf : ValidStream f)
    (p1 p2 : Chromosome) (totalBuffers L k : ℕ)
    (h1 : p1.length = L) (h2 : p2.length = L) (hL : 2 ≤ L) :
    let point := (randBelow f (L - 1) k).1 + 1
    let offspring1 := p1.take point ++ p2.drop point
    let offspring2 := p2.take point ++ p1.drop point
    let r1 := repair f L totalBuffers offspring1 (k + 1)
    let r2 := repair f L totalBuffers offspring2 r1.2.1
    (crossover f totalBuffers p1 p2 k).1 = (r1.1, r2.1) ∧
    r1.1.sum = totalBuffers ∧ r2.1.sum = totalBuffers ∧
    r1.2.2 ≤ sumDist offspring1.sum totalBuffers ∧
    r2.2.2 ≤ sumDist offspring2.sum totalBuffers := by
  intro point offspring1 offspring2 r1 r2
  have hd : (randBelow f (L - 1) k).1 < L - 1 :=
    randBelow_lt f hf (by omega) k
  have hpt : point ≤ L := by simp only [point]; omega
  have hlen1 : offspring1.length = L := crossover_offspring_length h1 h2 _ hpt
  have hlen2 : offspring2.length = L := crossover_offspring_length h2 h1 _ hpt
  have hr1 := repair_spec f hf (show 0 < L by omega) totalBuffers offspring1
    (k + 1) hlen1
  have hr2 := repair_spec f hf (show 0 < L by omega) totalBuffers offspring2
    r1.2.1 hlen2
  refine ⟨?_, hr1.1, hr2.1, hr1.2.2, hr2.2.2⟩
  simp only [crossover, h1]
  rw [if_neg (by omega)]
  rfl

/-- C5 witness: the theorem at concrete parents `[2, 0]` and `[0, 3]` with
target total 2. -/
theorem c5_repair_termination_witness :
    let point := (randBelow (fun _ => 0) (2 - 1) 0).1 + 1
    let offspring1 := [2, 0].take point ++ [0, 3].drop point
    let offspring2 := [0, 3].take point ++ [2, 0].drop point
    let r1 := repair (fun _ => 0) 2 2 offspring1 (0 + 1)
    let r2 := repair (fun _ => 0) 2 2 offspring2 r1.2.1
    (crossover (fun _ => 0) 2 [2, 0] [0, 3] 0).1 = (r1.1, r2.1) ∧
    r1.1.sum = 2 ∧ r2.1.sum = 2 ∧
    r1.2.2 ≤ sumDist offspring1.sum 2 ∧
    r2.2.2 ≤ sumDist offspring2.sum 2 :=
  c5_repair_termination (fun _ => 0) (fun _ => ⟨le_refl 0, by norm_num⟩)
    [2, 0] [0, 3] 2 2 0 rfl rfl (by norm_num)

/-- C6: for `numStations ≤ 1` the run emits no progress records and
returns the fixed degenerate result (empty allocation, throughput 0, no
buffers used, best fitness `-∞`), regardless of every other parameter. -/
theorem c6_degenerate (params : OptimizationParams) (settings : GASettings)
    (f : ℕ → ℚ) (k : ℕ) (h : params.numStations ≤ 1) :
    runGA params settings f k = ([], ⟨[], 0, 0, ⊥⟩) := by
  rw [runGA, if_pos (by omega)]

/-- C6 witness: the degenerate case at `numStations = 1`. -/
theorem c6_degenerate_witness :
    runGA ⟨1, 5, 1, 1⟩ ⟨4, 3, 1/2, 1/2, 2⟩ (fun _ => 0) 0 =
      ([], ⟨[], 0, 0, ⊥⟩) :=
  c6_degenerate ⟨1, 5, 1, 1⟩ ⟨4, 3, 1/2, 1/2, 2⟩ (fun _ => 0) 0 le_rfl

/-- C2: across any run, the reported `bestFitness` values form a
non-decreasing chain, and the final result's `bestFitness` bounds every
reported value (elitism never regresses). -/
theorem c2_bestFitness_monotone (params : OptimizationParams)
    (settings : GASettings) (f : ℕ → ℚ) (k : ℕ) :
    List.Chain' (· ≤ ·) ((runGA params settings f k).1.map
      ProgressData.bestFitness) ∧
    ∀ pd ∈ (runGA params settings f k).1,
      pd.bestFitness ≤ (runGA params settings f k).2.bestFitness := by
  by_cases hdeg : params.numStations - 1 ≤ 0
  · rw [runGA, if_pos hdeg]
    constructor
    · simp
    · intro pd hpd
      simp at hpd
  · rw [runGA, if_neg hdeg]
    obtain ⟨_, _, ihc, ihd⟩ := gaLoop_mono params.w1 params.w2
      params.totalBuffers settings.populationSize settings.tournamentSize
      settings.mutationRate settings.crossoverRate f settings.generations 0
      (initState params settings f k)
    exact ⟨ihd, ihc⟩

/-- C3: a run with `numStations ≥ 2` and `generations = N` emits exactly N
progress records whose generation fields are `1, 2, ..., N` (the terminal
result is the single second component of the run). -/
theorem c3_progress_records (params : OptimizationParams)
    (settings : GASettings) (f : ℕ → ℚ) (k : ℕ)
    (h2 : 2 ≤ params.numStations) :
    ((runGA params settings f k).1.map ProgressData.generation) =
      List.range' 1 settings.generations ∧
    (runGA params settings f k).1.length = settings.generations := by
  rw [runGA, if_neg (by omega)]
  have hgen := gaLoop_generations params.w1 params.w2 params.totalBuffers
    settings.populationSize settings.tournamentSize settings.mutationRate
    settings.crossoverRate f settings.generations 0
    (initState params settings f k)
  constructor
  · simpa using hgen
  · have hl := congrArg List.length hgen
    simpa using hl

/-- C3 witness: a concrete two-generation run on a two-station line. -/
theorem c3_progress_records_witness :
    ((runGA ⟨2, 3, 1, 1⟩ ⟨2, 2, 0, 0, 1⟩ (fun _ => 0) 0).1.map
      ProgressData.generation) = List.range' 1 2 ∧
    (runGA ⟨2, 3, 1, 1⟩ ⟨2, 2, 0, 0, 1⟩ (fun _ => 0) 0).1.length = 2 :=
  c3_progress_records ⟨2, 3, 1, 1⟩ ⟨2, 2, 0, 0, 1⟩ (fun _ => 0) 0 le_rfl

/-- C7: every generation's reported `avgFitness` equals the sum of the
fitnesses of the population evaluated that generation (recorded by
`runStates`) divided by `populationSize`. -/
theorem c7_avgFitness (params : OptimizationParams) (settings : GASettings)
    (f : ℕ → ℚ) (k : ℕ) (h2 : 2 ≤ params.numStations)
    (hpop : 1 ≤ settings.populationSize) :
    ((runGA params settings f k).1.map ProgressData.avgFitness) =
    (runStates params settings f k).map
      (fun P => ((P.map (fun ind =>
        calculateFitness ind params.w1 params.w2)).sum) /
          (settings.populationSize : ℝ)) := by
  rw [runGA, runStates, if_neg (by omega), if_neg (by omega)]
  exact gaLoop_avgFitness_trace params.w1 params.w2 params.totalBuffers
    settings.populationSize settings.tournamentSize settings.mutationRate
    settings.crossoverRate f settings.generations 0
    (initState params settings f k)

/-- C7 witness: the average-fitness identity at a concrete run. -/
theorem c7_avgFitness_witness :
    ((runGA ⟨2, 3, 1, 1⟩ ⟨2, 2, 0, 0, 1⟩ (fun _ => 0) 0).1.map
      ProgressData.avgFitness) =
    (runStates ⟨2, 3, 1, 1⟩ ⟨2, 2, 0, 0, 1⟩ (fun _ => 0) 0).map
      (fun P => ((P.map (fun ind => calculateFitness ind 1 1)).sum) /
        ((2 : ℕ) : ℝ)) :=
  c7_avgFitness ⟨2, 3, 1, 1⟩ ⟨2, 2, 0, 0, 1⟩ (fun _ => 0) 0 le_rfl
    (by norm_num)

/-- The default-headed first element of a non-empty list is a member. -/
theorem headD_mem {α : Type*} (l : List α) (d : α) (h : l ≠ []) :
    l.headD d ∈ l := by
  cases l with
  | nil => exact absurd rfl h
  | cons a t => simp

/-- The state a non-degenerate run enters its loop with satisfies the
population invariant. -/
theorem initState_inv (params : OptimizationParams) (settings : GASettings)
    (f : ℕ → ℚ) (k : ℕ) (hf : ValidStream f)
    (h2 : 2 ≤ params.numStations) (hpop : 1 ≤ settings.populationSize) :
    (initState params settings f k).population.length =
      settings.populationSize ∧
    (∀ c ∈ (initState params settings f k).population,
      c.length = params.numStations - 1 ∧ c.sum = params.totalBuffers) ∧
    ((initState params settings f k).bestEver.length =
        params.numStations - 1 ∧
      (initState params settings f k).bestEver.sum = params.totalBuffers) := by
  have hinit := initializePopulation_valid f hf
    (show 0 < params.numStations - 1 by omega) params.totalBuffers
    settings.populationSize k
  refine ⟨hinit.1, hinit.2, ?_⟩
  have hne : (initializePopulation f settings.populationSize
      (params.numStations - 1) params.totalBuffers k).1 ≠ [] := by
    intro h
    rw [h] at hinit
    simp at hinit
    omega
  exact hinit.2 _ (headD_mem _ [] hne)

/-- C10: a non-degenerate run with `generations = 0` emits no progress
records and returns a result whose allocation is the first individual of
the freshly initialised population (never evaluated), whose buffers-used
count equals `totalBuffers`, and whose best fitness is `-∞`. -/
theorem c10_zero_generations (params : OptimizationParams)
    (settings : GASettings) (f : ℕ → ℚ) (k : ℕ) (hf : ValidStream f)
    (h2 : 2 ≤ params.numStations) (hgen : settings.generations = 0)
    (hpop : 1 ≤ settings.populationSize) :
    (runGA params settings f k).1 = [] ∧
    (runGA params settings f k).2.bestAllocation =
      (initializePopulation f settings.populationSize
        (params.numStations - 1) params.totalBuffers k).1.headD [] ∧
    (runGA params settings f k).2.totalBuffersUsed = params.totalBuffers ∧
    (runGA params settings f k).2.bestFitness = ⊥ := by
  have hinv := initState_inv params settings f k hf h2 hpop
  rw [runGA, if_neg (by omega), hgen]
  refine ⟨rfl, rfl, ?_, rfl⟩
  show (initState params settings f k).bestEver.sum = params.totalBuffers
  exact hinv.2.2.2

/-- C10 witness: a concrete zero-generation run. -/
theorem c10_zero_generations_witness :
    (runGA ⟨2, 3, 1, 1⟩ ⟨2, 0, 0, 0, 1⟩ (fun _ => 0) 0).1 = [] ∧
    (runGA ⟨2, 3, 1, 1⟩ ⟨2, 0, 0, 0, 1⟩ (fun _ => 0) 0).2.bestAllocation =
      (initializePopulation (fun _ => 0) 2 (2 - 1) 3 0).1.headD [] ∧
    (runGA ⟨2, 3, 1, 1⟩ ⟨2, 0, 0, 0, 1⟩
      (fun _ => 0) 0).2.totalBuffersUsed = 3 ∧
    (runGA ⟨2, 3, 1, 1⟩ ⟨2, 0, 0, 0, 1⟩ (fun _ => 0) 0).2.bestFitness = ⊥ :=
  c10_zero_generations ⟨2, 3, 1, 1⟩ ⟨2, 0, 0, 0, 1⟩ (fun _ => 0) 0
    (fun _ => ⟨le_refl 0, by norm_num⟩) le_rfl rfl (by norm_num)

/-- C1: with `numStations ≥ 2` every chromosome produced by
`createIndividual`, by `crossover` with repair (from valid parents), and by
`mutate` (from a valid chromosome) has length `numStations - 1` and sum
`totalBuffers`; consequently, in any run whose settings satisfy the data
model (`populationSize ≥ 1`, `tournamentSize ≥ 1`, rates in `[0, 1]`),
every member of every generation's evaluated population is such a
chromosome. -/
theorem c1_chromosome_invariants (f : ℕ → ℚ) (hf : ValidStream f)
    (numStations totalBuffers : ℕ) (h2 : 2 ≤ numStations) :
    (∀ k, (createIndividual f (numStations - 1) totalBuffers k).1.length =
        numStations - 1 ∧
      (createIndividual f (numStations - 1) totalBuffers k).1.sum =
        totalBuffers) ∧
    (∀ (p1 p2 : Chromosome) (k : ℕ),
      p1.length = numStations - 1 → p2.length = numStations - 1 →
      p1.sum = totalBuffers → p2.sum = totalBuffers →
      ((crossover f totalBuffers p1 p2 k).1.1.length = numStations - 1 ∧
        (crossover f totalBuffers p1 p2 k).1.1.sum = totalBuffers) ∧
      ((crossover f totalBuffers p1 p2 k).1.2.length = numStations - 1 ∧
        (crossover f totalBuffers p1 p2 k).1.2.sum = totalBuffers)) ∧
    (∀ (c : Chromosome) (k : ℕ),
      c.length = numStations - 1 → c.sum = totalBuffers →
      (mutate f c k).1.length = numStations - 1 ∧
        (mutate f c k).1.sum = totalBuffers) ∧
    (∀ (w1 w2 : ℝ) (popSize gens tournSize k : ℕ) (mutR crossR : ℚ),
      1 ≤ popSize → 1 ≤ tournSize →
      0 ≤ mutR → mutR ≤ 1 → 0 ≤ crossR → crossR ≤ 1 →
      ∀ P ∈ runStates ⟨numStations, totalBuffers, w1, w2⟩
        ⟨popSize, gens, mutR, crossR, tournSize⟩ f k,
        ∀ c ∈ P, c.length = numStations - 1 ∧ c.sum = totalBuffers) := by
  have hL : 0 < numStations - 1 := by omega
  refine ⟨?_, ?_, ?_, ?_⟩
  · intro k
    exact createIndividual_valid f hf hL totalBuffers k
  · intro p1 p2 k h1 h2' hs1 hs2
    have := crossover_valid f hf totalBuffers hL h1 h2' hs1 hs2 k
    exact ⟨⟨this.1.2, this.1.1⟩, ⟨this.2.2, this.2.1⟩⟩
  · intro c k hlen hsum
    have := mutate_valid f hf c k
    exact ⟨this.1.trans hlen, this.2.trans hsum⟩
  · intro w1 w2 popSize gens tournSize k mutR crossR hpop hT _ _ _ _ P hP
    rw [runStates, if_neg (show ¬(numStations - 1 ≤ 0) by omega)] at hP
    have hinv := initState_inv ⟨numStations, totalBuffers, w1, w2⟩
      ⟨popSize, gens, mutR, crossR, tournSize⟩ f k hf h2 hpop
    exact gaStates_valid w1 w2 mutR crossR f hf hL
      (show 0 < popSize by omega) hT gens 0
      (initState ⟨numStations, totalBuffers, w1, w2⟩
        ⟨popSize, gens, mutR, crossR, tournSize⟩ f k)
      hinv.1 hinv.2.1 hinv.2.2 P hP

/-- C1 witness: the invariants instantiated at a concrete three-station
problem with four buffers. -/
theorem c1_chromosome_invariants_witness :
    (∀ k, (createIndividual (fun _ => 0) (3 - 1) 4 k).1.length = 3 - 1 ∧
      (createIndividual (fun _ => 0) (3 - 1) 4 k).1.sum = 4) ∧
    (∀ (p1 p2 : Chromosome) (k : ℕ),
      p1.length = 3 - 1 → p2.length = 3 - 1 → p1.sum = 4 → p2.sum = 4 →
      ((crossover (fun _ => 0) 4 p1 p2 k).1.1.length = 3 - 1 ∧
        (crossover (fun _ => 0) 4 p1 p2 k).1.1.sum = 4) ∧
      ((crossover (fun _ => 0) 4 p1 p2 k).1.2.length = 3 - 1 ∧
        (crossover (fun _ => 0) 4 p1 p2 k).1.2.sum = 4)) ∧
    (∀ (c : Chromosome) (k : ℕ), c.length = 3 - 1 → c.sum = 4 →
      (mutate (fun _ => 0) c k).1.length = 3 - 1 ∧
        (mutate (fun _ => 0) c k).1.sum = 4) ∧
    (∀ (w1 w2 : ℝ) (popSize gens tournSize k : ℕ) (mutR crossR : ℚ),
      1 ≤ popSize → 1 ≤ tournSize →
      0 ≤ mutR → mutR ≤ 1 → 0 ≤ crossR → crossR ≤ 1 →
      ∀ P ∈ runStates ⟨3, 4, w1, w2⟩
        ⟨popSize, gens, mutR, crossR, tournSize⟩ (fun _ => 0) k,
        ∀ c ∈ P, c.length = 3 - 1 ∧ c.sum = 4) :=
  c1_chromosome_invariants (fun _ => 0)
    (fun _ => ⟨le_refl 0, by norm_num⟩) 3 4 (by norm_num)
